import Mathlib

/-!
Verification of the custom-lightRAG demo application's core helpers.

The development shallowly embeds the three pieces of original logic of the
repository:

* `async_runner.py` — the synchronous-to-asynchronous execution bridge
  (`start_background_loop`, `run_coro_threadsafe`);
* `ingestion.py` — the workspace artifact list `_LR_FILES`,
  `clear_workdir_files`, the query-mode list `QUERY_MODES`, and the
  scratch-file persistence / text normalization of `pdf_bytes_to_text`;
* `lightrag_app.py` — `STORAGE_FILES`, `storages_exist`, and the
  run-all-modes query loop.

Machine strings are embedded as `List Char`/`String`, file bytes as
`List Nat`, and the background event loop as an explicit state record.
-/

/-! ## Background execution bridge (`async_runner.py`) -/

/-- An asyncio event loop: an identity plus its `is_running()` flag. -/
structure EventLoop where
  ident : Nat
  running : Bool
deriving DecidableEq, Repr

/-- The module-level mutable state of `async_runner.py`: the `_loop` and
`_loop_thread` globals, plus bookkeeping to count loop creations (used to
state idempotence) and to give fresh identities. -/
structure BridgeState where
  loop : Option EventLoop
  thread : Option Nat
  nextIdent : Nat
  loopsCreated : Nat
deriving DecidableEq, Repr

/-- The state at module import: `_loop = None`, `_loop_thread = None`. -/
def freshBridge : BridgeState := ⟨none, none, 0, 0⟩

/-- `start_background_loop()`: if `_loop` is set and `_loop.is_running()`,
return it unchanged; otherwise create a new loop, start a daemon thread
running it forever, and return the new loop.  A newly created loop is
modelled as running (its thread immediately enters `run_forever`). -/
def start_background_loop (s : BridgeState) : EventLoop × BridgeState :=
  match s.loop with
  | some l =>
    if l.running then (l, s)
    else
      (⟨s.nextIdent, true⟩,
        ⟨some ⟨s.nextIdent, true⟩, some s.nextIdent, s.nextIdent + 1, s.loopsCreated + 1⟩)
  | none =>
      (⟨s.nextIdent, true⟩,
        ⟨some ⟨s.nextIdent, true⟩, some s.nextIdent, s.nextIdent + 1, s.loopsCreated + 1⟩)

/-- Iterate `start_background_loop` a number of times, keeping the state. -/
def startIter : Nat → BridgeState → BridgeState
  | 0, s => s
  | n + 1, s => startIter n (start_background_loop s).2

/-! ## `run_coro_threadsafe` (`async_runner.py`) -/

/-- A submitted unit of work (a coroutine): how long it takes to complete,
and whether it returns a value or raises an exception. -/
structure Work (V E : Type) where
  duration : Nat
  outcome : Except E V

/-- What the calling thread observes from `future.result(timeout)`. -/
inductive CallOutcome (V E : Type) where
  | value (v : V)
  | raised (e : E)
  | timedOut
deriving DecidableEq, Repr

/-- `concurrent.futures.Future.result(timeout)`: if the deadline elapses
before the work completes, raise `TimeoutError`; otherwise return the
work's value or re-raise its exception. -/
def future_result {V E : Type} (timeout : Option Nat) (w : Work V E) : CallOutcome V E :=
  match timeout with
  | none =>
    match w.outcome with
    | Except.ok v => CallOutcome.value v
    | Except.error e => CallOutcome.raised e
  | some t =>
    if t < w.duration then CallOutcome.timedOut
    else
      match w.outcome with
      | Except.ok v => CallOutcome.value v
      | Except.error e => CallOutcome.raised e

/-- Everything observable about one `run_coro_threadsafe` call: what the
caller sees, and the fate of the task left on the scheduler.  `result`
never cancels the future, so the coroutine always runs to completion on
the loop with its own outcome. -/
structure RunResult (V E : Type) where
  callerResult : CallOutcome V E
  taskRunsToCompletion : Bool
  taskOutcome : Except E V

/-- `run_coro_threadsafe(coro, timeout)`: ensure the loop is running via
`start_background_loop()`, schedule the coroutine, and block on
`future.result(timeout)`.  No cancellation is ever requested. -/
def run_coro_threadsafe {V E : Type} (s : BridgeState) (w : Work V E)
    (timeout : Option Nat) : RunResult V E × BridgeState :=
  let s2 := (start_background_loop s).2
  ({ callerResult := future_result timeout w
   , taskRunsToCompletion := true
   , taskOutcome := w.outcome }, s2)

/-! ### Claims C1, C2, C3 -/

lemma start_of_running (s : BridgeState) (l : EventLoop)
    (hl : s.loop = some l) (hr : l.running = true) :
    start_background_loop s = (l, s) := by
  unfold start_background_loop
  rw [hl]
  simp [hr]

lemma startIter_fixed (s : BridgeState) (l : EventLoop)
    (hl : s.loop = some l) (hr : l.running = true) :
    ∀ n, startIter n s = s := by
  intro n
  induction n with
  | zero => rfl
  | succ n ih =>
    have h := start_of_running s l hl hr
    simp [startIter, h, ih]

/-- Claim C1: `start()` is idempotent — if a scheduler is already running,
`start()` returns that same scheduler with the bridge state (loop, thread,
creation counter) unchanged; and along any sequence of repeated calls from
the fresh state, the scheduler-creation count is exactly 1 and every call
settles on the same single running loop. -/
theorem C1_start_idempotent :
    (∀ (s : BridgeState) (l : EventLoop), s.loop = some l → l.running = true →
        start_background_loop s = (l, s)) ∧
    (∀ n : Nat, startIter (n + 1) freshBridge = startIter 1 freshBridge) ∧
    (startIter 1 freshBridge).loopsCreated = 1 ∧
    (∀ n : Nat, (startIter (n + 1) freshBridge).loop = some ⟨0, true⟩) := by
  refine ⟨start_of_running, ?_, rfl, ?_⟩
  · intro n
    have h1 : startIter (n + 1) freshBridge = startIter n (startIter 1 freshBridge) := rfl
    rw [h1, startIter_fixed (startIter 1 freshBridge) ⟨0, true⟩ rfl rfl]
  · intro n
    have h1 : startIter (n + 1) freshBridge = startIter n (startIter 1 freshBridge) := rfl
    rw [h1, startIter_fixed (startIter 1 freshBridge) ⟨0, true⟩ rfl rfl]
    rfl

theorem C1_witness :
    start_background_loop ⟨some ⟨4, true⟩, some 2, 5, 1⟩ = (⟨4, true⟩, ⟨some ⟨4, true⟩, some 2, 5, 1⟩) :=
  C1_start_idempotent.1 ⟨some ⟨4, true⟩, some 2, 5, 1⟩ ⟨4, true⟩ rfl rfl

/-- Claim C2: a unit of work that raises exception `E` has that very
exception re-raised in the calling thread by `run_coro_threadsafe`,
whenever the wait deadline does not cut the wait short (no timeout, or a
timeout at least the work's duration). -/
theorem C2_error_propagation {V E : Type} (s : BridgeState) (w : Work V E)
    (timeout : Option Nat) (e : E)
    (herr : w.outcome = Except.error e)
    (ht : timeout = none ∨ ∃ t, timeout = some t ∧ w.duration ≤ t) :
    (run_coro_threadsafe s w timeout).1.callerResult = CallOutcome.raised e := by
  rcases ht with h | ⟨t, ht, hle⟩
  · simp [run_coro_threadsafe, future_result, h, herr]
  · simp [run_coro_threadsafe, future_result, ht, herr, Nat.not_lt.mpr hle]

theorem C2_witness :
    (run_coro_threadsafe freshBridge ⟨2, Except.error 7⟩ (none : Option Nat)).1.callerResult
      = CallOutcome.raised (E := Nat) (V := Nat) 7 :=
  C2_error_propagation freshBridge ⟨2, Except.error 7⟩ none 7 rfl (Or.inl rfl)

/-- Claim C3: a unit of work completing with value `V` yields `V` to the
caller when the timeout is `None` or at least the work's duration; when the
deadline elapses first, the caller gets the distinct timeout outcome while
the task itself is not cancelled: it still runs to completion on the
scheduler with its own outcome. -/
theorem C3_timeout_behavior {V E : Type} (s : BridgeState) (w : Work V E) (v : V)
    (hok : w.outcome = Except.ok v) :
    ((run_coro_threadsafe s w none).1.callerResult = CallOutcome.value v) ∧
    (∀ t, w.duration ≤ t →
        (run_coro_threadsafe s w (some t)).1.callerResult = CallOutcome.value v) ∧
    (∀ t, t < w.duration →
        (run_coro_threadsafe s w (some t)).1.callerResult = CallOutcome.timedOut ∧
        (run_coro_threadsafe s w (some t)).1.taskRunsToCompletion = true ∧
        (run_coro_threadsafe s w (some t)).1.taskOutcome = Except.ok v) := by
  refine ⟨?_, ?_, ?_⟩
  · simp [run_coro_threadsafe, future_result, hok]
  · intro t ht
    simp [run_coro_threadsafe, future_result, hok, Nat.not_lt.mpr ht]
  · intro t ht
    refine ⟨?_, rfl, ?_⟩
    · simp [run_coro_threadsafe, future_result, ht]
    · simp [run_coro_threadsafe, hok]

theorem C3_witness :
    ((run_coro_threadsafe freshBridge (⟨5, Except.ok 3⟩ : Work Nat Nat) (some 2)).1.callerResult
        = CallOutcome.timedOut) ∧
    ((run_coro_threadsafe freshBridge (⟨5, Except.ok 3⟩ : Work Nat Nat) (some 2)).1.taskRunsToCompletion = true) ∧
    ((run_coro_threadsafe freshBridge (⟨5, Except.ok 3⟩ : Work Nat Nat) (some 2)).1.taskOutcome = Except.ok 3) :=
  (C3_timeout_behavior freshBridge (⟨5, Except.ok 3⟩ : Work Nat Nat) 3 rfl).2.2 2 (by decide)

/-! ## Text normalization (`ingestion.py`, `pdf_bytes_to_text` lines 110-112)

The code runs two regex substitutions over the extracted text:
`re.sub(r"[ \t]+", " ", text)` followed by `re.sub(r"\n{3,}", "\n\n", text)`.
`collapseHWS` and `capNL` embed them as left-to-right scans over the
character list: a maximal run of spaces/tabs becomes one space, and a
maximal run of three or more newlines becomes exactly two. -/

/-- A horizontal-whitespace character, the class `[ \t]`. -/
def isHWS (c : Char) : Bool := c == ' ' || c == '\t'

/-- Does the list start with a horizontal-whitespace character? -/
def startsHWS : List Char → Bool
  | c :: _ => isHWS c
  | [] => false

/-- `re.sub(r"[ \t]+", " ", text)`: every maximal run of spaces and tabs
becomes a single space.  While the run continues, characters are dropped;
the single space is emitted at the run's last character. -/
def collapseHWS : List Char → List Char
  | [] => []
  | c :: cs =>
    if isHWS c then
      (if startsHWS cs then collapseHWS cs else ' ' :: collapseHWS cs)
    else c :: collapseHWS cs

/-- Does the list start with two newline characters? -/
def startsTwoNL : List Char → Bool
  | [] => false
  | [_] => false
  | c :: d :: _ => c == '\n' && d == '\n'

/-- `re.sub(r"\n{3,}", "\n\n", text)`: every maximal run of three or more
newlines becomes exactly two.  A newline followed by at least two more
newlines is dropped; the last two of a long run survive. -/
def capNL : List Char → List Char
  | [] => []
  | c :: cs => if c == '\n' && startsTwoNL cs then capNL cs else c :: capNL cs

/-- The whole normalization step of `pdf_bytes_to_text`: horizontal
whitespace collapsing, then blank-line capping. -/
def normalizeText (l : List Char) : List Char := capNL (collapseHWS l)

lemma collapseHWS_cons (c : Char) (cs : List Char) :
    collapseHWS (c :: cs) =
      if isHWS c then
        (if startsHWS cs then collapseHWS cs else ' ' :: collapseHWS cs)
      else c :: collapseHWS cs := rfl

lemma capNL_cons (c : Char) (cs : List Char) :
    capNL (c :: cs) = if c == '\n' && startsTwoNL cs then capNL cs else c :: capNL cs := rfl

lemma collapseHWS_cons_not (c : Char) (cs : List Char) (h : isHWS c = false) :
    collapseHWS (c :: cs) = c :: collapseHWS cs := by
  rw [collapseHWS_cons, h]
  simp

lemma capNL_cons_not (c : Char) (cs : List Char) (h : (c == '\n') = false) :
    capNL (c :: cs) = c :: capNL cs := by
  rw [capNL_cons, h]
  simp

lemma startsHWS_cons (c : Char) (l : List Char) : startsHWS (c :: l) = isHWS c := rfl

lemma startsTwoNL_cons2 (c d : Char) (l : List Char) :
    startsTwoNL (c :: d :: l) = (c == '\n' && d == '\n') := rfl

lemma startsTwoNL_append (c : Char) (xs ys : List Char) (hc : (c == '\n') = false) :
    startsTwoNL (xs ++ c :: ys) = startsTwoNL xs := by
  match xs with
  | [] => cases ys <;> simp [startsTwoNL, hc]
  | [d] => simp [startsTwoNL, hc]
  | d :: e :: xs2 => rfl

lemma collapseHWS_split (c : Char) (xs ys : List Char) (hc : isHWS c = false) :
    collapseHWS (xs ++ c :: ys) = collapseHWS xs ++ c :: collapseHWS ys := by
  induction xs with
  | nil => simp [collapseHWS, hc]
  | cons x xs ih =>
    cases xs with
    | nil =>
      by_cases hx : isHWS x = true
      · simp [collapseHWS, startsHWS, hx, hc]
      · simp only [Bool.not_eq_true] at hx
        simp [collapseHWS, startsHWS, hx, hc]
    | cons d xs2 =>
      by_cases hx : isHWS x = true
      · by_cases hd : isHWS d = true
        · simpa [List.cons_append, collapseHWS_cons x, startsHWS_cons, hx, hd] using ih
        · simp only [Bool.not_eq_true] at hd
          simpa [List.cons_append, collapseHWS_cons x, startsHWS_cons, hx, hd] using ih
      · simp only [Bool.not_eq_true] at hx
        simpa [List.cons_append, collapseHWS_cons_not x _ hx] using ih

lemma capNL_split (c : Char) (xs ys : List Char) (hc : (c == '\n') = false) :
    capNL (xs ++ c :: ys) = capNL xs ++ c :: capNL ys := by
  induction xs with
  | nil => simp [capNL, hc]
  | cons x xs ih =>
    rw [List.cons_append, capNL_cons, capNL_cons x xs, startsTwoNL_append c xs ys hc]
    by_cases hcond : (x == '\n' && startsTwoNL xs) = true
    · simp [hcond, ih]
    · simp only [Bool.not_eq_true] at hcond
      simp [hcond, ih]

lemma collapseHWS_run (l : List Char) (hne : l ≠ []) (hall : ∀ x ∈ l, isHWS x = true) :
    collapseHWS l = [' '] := by
  induction l with
  | nil => exact absurd rfl hne
  | cons x xs ih =>
    have hx : isHWS x = true := hall x (List.mem_cons_self x xs)
    cases xs with
    | nil => simp [collapseHWS, startsHWS, hx]
    | cons d xs2 =>
      have hd : isHWS d = true := hall d (by simp)
      have h2 := ih (by simp) (fun y hy => hall y (List.mem_cons_of_mem x hy))
      simp [collapseHWS_cons, startsHWS_cons, hx, hd, h2]

lemma capNL_nl_run (n : Nat) : capNL (List.replicate (n + 3) '\n') = ['\n', '\n'] := by
  induction n with
  | zero => rfl
  | succ n ih =>
    have h2 : List.replicate (n + 1 + 3) '\n' = '\n' :: List.replicate (n + 3) '\n' := rfl
    have hs : startsTwoNL (List.replicate (n + 3) '\n') = true := by
      have h3 : List.replicate (n + 3) '\n' = '\n' :: '\n' :: List.replicate (n + 1) '\n' := rfl
      rw [h3, startsTwoNL_cons2]
      simp
    rw [h2, capNL_cons, hs]
    simp [ih]

/-- Claim C4: the normalization step of `pdf_bytes_to_text` replaces every
maximal run of horizontal whitespace by one space and caps every run of
three or more newlines at exactly two newlines (one blank line, never
zero): in any surrounding context `"a\t\tb"` comes out as `"a b"`, a
maximal run of four newlines comes out as exactly two, any nonempty pure
run of spaces/tabs collapses to a single space, and any newline run of
length `n + 3` caps at two. -/
theorem C4_normalization :
    (∀ u v : List Char,
        normalizeText (u ++ 'a' :: '\t' :: '\t' :: 'b' :: v) =
          normalizeText u ++ 'a' :: ' ' :: 'b' :: normalizeText v) ∧
    (∀ (u v : List Char) (c d : Char),
        isHWS c = false → (c == '\n') = false → isHWS d = false → (d == '\n') = false →
        normalizeText (u ++ c :: '\n' :: '\n' :: '\n' :: '\n' :: d :: v) =
          normalizeText u ++ c :: '\n' :: '\n' :: d :: normalizeText v) ∧
    (∀ l : List Char, l ≠ [] → (∀ x ∈ l, isHWS x = true) → collapseHWS l = [' ']) ∧
    (∀ n : Nat, capNL (List.replicate (n + 3) '\n') = ['\n', '\n']) := by
  refine ⟨?_, ?_, collapseHWS_run, capNL_nl_run⟩
  · intro u v
    unfold normalizeText
    rw [collapseHWS_split 'a' u _ (by decide)]
    have h1 : collapseHWS ('\t' :: '\t' :: 'b' :: v) = ' ' :: 'b' :: collapseHWS v := by
      rw [collapseHWS_cons '\t', collapseHWS_cons '\t',
        collapseHWS_cons_not 'b' v (by decide)]
      simp [startsHWS_cons, isHWS]
    rw [h1, capNL_split 'a' (collapseHWS u) _ (by decide),
      capNL_cons_not ' ' _ (by decide), capNL_cons_not 'b' _ (by decide)]
  · intro u v c d hc hcn hd hdn
    unfold normalizeText
    have e1 : u ++ c :: '\n' :: '\n' :: '\n' :: '\n' :: d :: v
        = u ++ c :: (('\n' :: '\n' :: '\n' :: '\n' :: []) ++ d :: v) := by simp
    rw [e1, collapseHWS_split c u _ hc,
      collapseHWS_split d ('\n' :: '\n' :: '\n' :: '\n' :: []) v hd,
      (by decide : collapseHWS ('\n' :: '\n' :: '\n' :: '\n' :: []) = '\n' :: '\n' :: '\n' :: '\n' :: []),
      capNL_split c (collapseHWS u) _ hcn,
      capNL_split d ('\n' :: '\n' :: '\n' :: '\n' :: []) (collapseHWS v) hdn,
      (by decide : capNL ('\n' :: '\n' :: '\n' :: '\n' :: []) = '\n' :: '\n' :: [])]
    simp

theorem C4_witness :
    (normalizeText ('x' :: [] ++ 'a' :: '\t' :: '\t' :: 'b' :: 'y' :: []) =
        normalizeText ('x' :: []) ++ 'a' :: ' ' :: 'b' :: normalizeText ('y' :: [])) ∧
    (normalizeText ('x' :: [] ++ 'q' :: '\n' :: '\n' :: '\n' :: '\n' :: 'r' :: 'y' :: []) =
        normalizeText ('x' :: []) ++ 'q' :: '\n' :: '\n' :: 'r' :: normalizeText ('y' :: [])) ∧
    (collapseHWS ('\t' :: '\t' :: []) = [' ']) ∧
    (capNL (List.replicate 4 '\n') = ['\n', '\n']) :=
  ⟨C4_normalization.1 ('x' :: []) ('y' :: []),
   C4_normalization.2.1 ('x' :: []) ('y' :: []) 'q' 'r'
     (by decide) (by decide) (by decide) (by decide),
   C4_normalization.2.2.1 ('\t' :: '\t' :: []) (by decide) (by decide),
   C4_normalization.2.2.2 1⟩

lemma startsTwoNL_cons_not (d : Char) (l : List Char) (hd : (d == '\n') = false) :
    startsTwoNL (d :: l) = false := by
  cases l <;> simp [startsTwoNL, hd]

lemma startsHWS_eq_head (l : List Char) : startsHWS l = (l.head?.map isHWS).getD false := by
  cases l <;> rfl

lemma capNL_head (l : List Char) : (capNL l).head? = l.head? := by
  induction l with
  | nil => rfl
  | cons c cs ih =>
    rw [capNL_cons]
    by_cases h : (c == '\n' && startsTwoNL cs) = true
    · rw [if_pos h]
      have hsplit : (c == '\n') = true ∧ startsTwoNL cs = true := by
        constructor
        · exact (Bool.and_eq_true_iff.mp h).1
        · exact (Bool.and_eq_true_iff.mp h).2
      rcases hsplit with ⟨h1, h2⟩
      have hc : c = '\n' := by simpa using h1
      have hcs : cs.head? = some '\n' := by
        cases cs with
        | nil => simp [startsTwoNL] at h2
        | cons d cs2 =>
          cases cs2 with
          | nil => simp [startsTwoNL] at h2
          | cons e cs3 =>
            have hd2 : (d == '\n') = true := (Bool.and_eq_true_iff.mp h2).1
            have : d = '\n' := by simpa using hd2
            simp [this]
      rw [ih, hcs, hc]
      rfl
    · simp only [Bool.not_eq_true] at h
      rw [if_neg (by simp [h])]
      rfl

lemma startsHWS_capNL (l : List Char) : startsHWS (capNL l) = startsHWS l := by
  rw [startsHWS_eq_head, startsHWS_eq_head, capNL_head]

lemma startsTwoNL_capNL (cs : List Char) (h : startsTwoNL cs = false) :
    startsTwoNL (capNL cs) = false := by
  cases cs with
  | nil => simp [capNL, startsTwoNL]
  | cons d cs2 =>
    cases cs2 with
    | nil => simp [capNL, startsTwoNL]
    | cons e cs3 =>
      rw [startsTwoNL_cons2] at h
      by_cases hd : (d == '\n') = true
      · have hdc : d = '\n' := by simpa using hd
        have he : (e == '\n') = false := by
          cases hee : (e == '\n') <;> simp [hee, hd] at h ⊢
        have hcond : startsTwoNL (e :: cs3) = false := startsTwoNL_cons_not e cs3 he
        rw [capNL_cons, hcond]
        simp only [Bool.and_false]
        rw [if_neg (by simp), capNL_cons_not e cs3 he, hdc]
        simp [startsTwoNL, he]
      · simp only [Bool.not_eq_true] at hd
        rw [capNL_cons]
        by_cases hcond : (d == '\n' && startsTwoNL (e :: cs3)) = true
        · exact absurd (Bool.and_eq_true_iff.mp hcond).1 (by simp [hd])
        · simp only [Bool.not_eq_true] at hcond
          rw [if_neg (by simp [hcond])]
          exact startsTwoNL_cons_not d _ hd

lemma capNL_idem (l : List Char) : capNL (capNL l) = capNL l := by
  induction l with
  | nil => rfl
  | cons c cs ih =>
    rw [capNL_cons]
    by_cases h : (c == '\n' && startsTwoNL cs) = true
    · rw [if_pos h]
      exact ih
    · simp only [Bool.not_eq_true] at h
      rw [if_neg (by simp [h])]
      by_cases hc : (c == '\n') = true
      · have hcs : startsTwoNL cs = false := by
          cases hss : startsTwoNL cs
          · rfl
          · rw [hc, hss] at h
            simp at h
        rw [capNL_cons c (capNL cs), startsTwoNL_capNL cs hcs]
        simp only [Bool.and_false]
        rw [if_neg (by simp), ih]
      · simp only [Bool.not_eq_true] at hc
        rw [capNL_cons_not c _ hc, ih]

lemma startsHWS_collapseHWS (cs : List Char) (h : startsHWS cs = false) :
    startsHWS (collapseHWS cs) = false := by
  cases cs with
  | nil => rfl
  | cons d cs2 =>
    rw [startsHWS_cons] at h
    rw [collapseHWS_cons_not d cs2 h, startsHWS_cons]
    exact h

lemma collapseHWS_idem (l : List Char) : collapseHWS (collapseHWS l) = collapseHWS l := by
  induction l with
  | nil => rfl
  | cons c cs ih =>
    rw [collapseHWS_cons]
    by_cases hx : isHWS c = true
    · by_cases hs : startsHWS cs = true
      · rw [if_pos hx, if_pos hs]
        exact ih
      · simp only [Bool.not_eq_true] at hs
        rw [if_pos hx, if_neg (by simp [hs])]
        rw [collapseHWS_cons ' ', if_pos (by decide : isHWS ' ' = true),
          if_neg (by simp [startsHWS_collapseHWS cs hs]), ih]
    · simp only [Bool.not_eq_true] at hx
      rw [if_neg (by simp [hx]), collapseHWS_cons_not c _ hx, ih]

lemma collapseHWS_length_le (l : List Char) : (collapseHWS l).length ≤ l.length := by
  induction l with
  | nil => exact Nat.le_refl 0
  | cons c cs ih =>
    rw [collapseHWS_cons]
    by_cases hx : isHWS c = true
    · by_cases hs : startsHWS cs = true
      · rw [if_pos hx, if_pos hs]
        exact Nat.le_trans ih (Nat.le_succ _)
      · simp only [Bool.not_eq_true] at hs
        rw [if_pos hx, if_neg (by simp [hs])]
        exact Nat.succ_le_succ ih
    · simp only [Bool.not_eq_true] at hx
      rw [if_neg (by simp [hx])]
      exact Nat.succ_le_succ ih

lemma collapseHWS_capNL_fixed (m : List Char) (hm : collapseHWS m = m) :
    collapseHWS (capNL m) = capNL m := by
  induction m with
  | nil => rfl
  | cons c cs ih =>
    rw [collapseHWS_cons] at hm
    have hfacts : collapseHWS cs = cs ∧ (isHWS c = true → c = ' ' ∧ startsHWS cs = false) := by
      by_cases hx : isHWS c = true
      · by_cases hs : startsHWS cs = true
        · rw [if_pos hx, if_pos hs] at hm
          have hlen := collapseHWS_length_le cs
          rw [hm] at hlen
          simp at hlen
        · simp only [Bool.not_eq_true] at hs
          rw [if_pos hx, if_neg (by simp [hs])] at hm
          exact ⟨(List.cons.inj hm).2, fun _ => ⟨((List.cons.inj hm).1).symm, hs⟩⟩
      · simp only [Bool.not_eq_true] at hx
        rw [if_neg (by simp [hx])] at hm
        exact ⟨(List.cons.inj hm).2, fun h => absurd h (by simp [hx])⟩
    rcases hfacts with ⟨hcs, hcfact⟩
    rw [capNL_cons]
    by_cases hcond : (c == '\n' && startsTwoNL cs) = true
    · rw [if_pos hcond]
      exact ih hcs
    · simp only [Bool.not_eq_true] at hcond
      rw [if_neg (by simp [hcond])]
      by_cases hx : isHWS c = true
      · rcases hcfact hx with ⟨hsp, hsh⟩
        subst hsp
        rw [collapseHWS_cons ' ', if_pos (by decide : isHWS ' ' = true),
          if_neg (by simp [startsHWS_capNL, startsHWS_collapseHWS, hsh]), ih hcs]
      · simp only [Bool.not_eq_true] at hx
        rw [collapseHWS_cons_not c _ hx, ih hcs]

/-- Claim C10: the normalization step of `pdf_bytes_to_text` is idempotent:
running the horizontal-whitespace collapse followed by the blank-line cap
on its own output changes nothing. -/
theorem C10_normalize_idempotent (l : List Char) :
    normalizeText (normalizeText l) = normalizeText l := by
  unfold normalizeText
  rw [collapseHWS_capNL_fixed (collapseHWS l) (collapseHWS_idem l), capNL_idem]

/-! ## Workspace manager (`ingestion.py` / `lightrag_app.py`)

A workspace directory is embedded as a flag recording whether the
directory exists plus the list of filenames present in it. -/

/-- A directory on disk: whether it exists, and the files inside it. -/
structure Workdir where
  dirMade : Bool
  files : List String
deriving DecidableEq, Repr

/-- `_LR_FILES` of `ingestion.py`: the files LightRAG writes. -/
def _LR_FILES : List String :=
  [ "graph_chunk_entity_relation.graphml"
  , "kv_store_doc_status.json"
  , "kv_store_full_docs.json"
  , "kv_store_text_chunks.json"
  , "vdb_chunks.json"
  , "vdb_entities.json"
  , "vdb_relationships.json" ]

/-- `STORAGE_FILES` of `lightrag_app.py` (the same seven names). -/
def STORAGE_FILES : List String :=
  [ "graph_chunk_entity_relation.graphml"
  , "kv_store_doc_status.json"
  , "kv_store_full_docs.json"
  , "kv_store_text_chunks.json"
  , "vdb_chunks.json"
  , "vdb_entities.json"
  , "vdb_relationships.json" ]

/-- `os.remove` on one filename. -/
def removeFile (fname : String) (files : List String) : List String :=
  files.filter (fun g => g != fname)

/-- One iteration of the `clear_workdir_files` loop for file `fname`:
if the file exists, try to delete it; a deletion failure (modelled by the
`failDel` oracle) is swallowed and the loop moves on. -/
def clearStep (failDel : String → Bool) (d : Workdir) (fname : String) : Workdir :=
  if d.files.contains fname then
    (if failDel fname then d else { d with files := removeFile fname d.files })
  else d

/-- `clear_workdir_files(working_dir)`: `os.makedirs(..., exist_ok=True)`
then best-effort deletion of each `_LR_FILES` entry present. -/
def clear_workdir_files (failDel : String → Bool) (d : Workdir) : Workdir :=
  _LR_FILES.foldl (clearStep failDel) { d with dirMade := true }

/-- `storages_exist(workdir)` of `lightrag_app.py`: true when any of the
seven `STORAGE_FILES` names is present in the directory. -/
def storages_exist (files : List String) : Bool :=
  STORAGE_FILES.any (fun f => files.contains f)

lemma contains_iff_mem (l : List String) (a : String) : l.contains a = true ↔ a ∈ l := by
  simp [List.contains, List.elem_iff]

lemma mem_removeFile (fname g : String) (files : List String) :
    g ∈ removeFile fname files ↔ g ∈ files ∧ g ≠ fname := by
  simp [removeFile]

lemma clearStep_dirMade (failDel : String → Bool) (d : Workdir) (fname : String) :
    (clearStep failDel d fname).dirMade = d.dirMade := by
  unfold clearStep
  split
  · split <;> rfl
  · rfl

lemma mem_clearStep (failDel : String → Bool) (d : Workdir) (fname g : String) :
    g ∈ (clearStep failDel d fname).files ↔
      g ∈ d.files ∧ (g ≠ fname ∨ failDel g = true) := by
  unfold clearStep
  by_cases hin : d.files.contains fname = true
  · rw [if_pos hin]
    by_cases hf : failDel fname = true
    · rw [if_pos hf]
      constructor
      · intro hg
        refine ⟨hg, ?_⟩
        by_cases hgf : g = fname
        · exact Or.inr (hgf ▸ hf)
        · exact Or.inl hgf
      · exact fun h => h.1
    · simp only [Bool.not_eq_true] at hf
      rw [if_neg (by simp [hf])]
      simp only [mem_removeFile]
      constructor
      · exact fun h => ⟨h.1, Or.inl h.2⟩
      · intro h
        refine ⟨h.1, ?_⟩
        rcases h.2 with h2 | h2
        · exact h2
        · intro hgf
          rw [hgf] at h2
          rw [h2] at hf
          exact absurd hf (by simp)
  · rw [if_neg hin]
    constructor
    · intro hg
      refine ⟨hg, ?_⟩
      by_cases hgf : g = fname
      · subst hgf
        exact absurd ((contains_iff_mem d.files g).mpr hg) (by simpa using hin)
      · exact Or.inl hgf
    · exact fun h => h.1

lemma foldl_clearStep_dirMade (failDel : String → Bool) (L : List String) (d : Workdir) :
    (L.foldl (clearStep failDel) d).dirMade = d.dirMade := by
  induction L generalizing d with
  | nil => rfl
  | cons f L ih => rw [List.foldl_cons, ih, clearStep_dirMade]

lemma mem_foldl_clearStep (failDel : String → Bool) (L : List String) (d : Workdir) (g : String) :
    g ∈ (L.foldl (clearStep failDel) d).files ↔
      g ∈ d.files ∧ (g ∉ L ∨ failDel g = true) := by
  induction L generalizing d with
  | nil => simp
  | cons f L ih =>
    rw [List.foldl_cons, ih, mem_clearStep]
    constructor
    · rintro ⟨⟨hd, hf⟩, hrest⟩
      refine ⟨hd, ?_⟩
      rcases hrest with h | h
      · rcases hf with h2 | h2
        · exact Or.inl (by simp [h, h2])
        · exact Or.inr h2
      · exact Or.inr h
    · rintro ⟨hd, h⟩
      rcases h with h | h
      · simp only [List.mem_cons, not_or] at h
        exact ⟨⟨hd, Or.inl h.1⟩, Or.inl h.2⟩
      · exact ⟨⟨hd, Or.inr h⟩, Or.inr h⟩

/-- Claim C5: `clear_workdir_files` ensures the workspace directory
exists, removes exactly the `_LR_FILES` artifacts present whose deletion
does not fail, and leaves every non-artifact file untouched; a missing
artifact is not an error and a failed deletion of one file never aborts
the deletion of the others (membership after clearing is decided file by
file). -/
theorem C5_clear_files (failDel : String → Bool) (d : Workdir) :
    (clear_workdir_files failDel d).dirMade = true ∧
    (∀ g, g ∈ (clear_workdir_files failDel d).files ↔
        g ∈ d.files ∧ (g ∉ _LR_FILES ∨ failDel g = true)) ∧
    (∀ g, g ∉ _LR_FILES → (g ∈ (clear_workdir_files failDel d).files ↔ g ∈ d.files)) := by
  refine ⟨?_, ?_, ?_⟩
  · rw [clear_workdir_files, foldl_clearStep_dirMade]
  · intro g
    exact mem_foldl_clearStep failDel _LR_FILES _ g
  · intro g hg
    rw [clear_workdir_files, mem_foldl_clearStep]
    simp [hg]

theorem C5_witness :
    ("keep.txt" ∈ (clear_workdir_files (fun _ => false)
        ⟨false, ["graph_chunk_entity_relation.graphml", "keep.txt"]⟩).files ↔
      "keep.txt" ∈ (["graph_chunk_entity_relation.graphml", "keep.txt"] : List String)) ∧
    ((clear_workdir_files (fun _ => false)
        ⟨false, ["graph_chunk_entity_relation.graphml", "keep.txt"]⟩).dirMade = true) :=
  ⟨(C5_clear_files (fun _ => false)
      ⟨false, ["graph_chunk_entity_relation.graphml", "keep.txt"]⟩).2.2 "keep.txt" (by decide),
   (C5_clear_files (fun _ => false)
      ⟨false, ["graph_chunk_entity_relation.graphml", "keep.txt"]⟩).1⟩

/-- Claim C6: `storages_exist` is true exactly when at least one of the
seven `STORAGE_FILES` artifact names is present: false on an empty
directory, and true as soon as any single one of the seven is created,
for each of the seven individually. -/
theorem C6_storages_exist :
    (∀ files : List String,
        storages_exist files = true ↔ ∃ f, f ∈ STORAGE_FILES ∧ f ∈ files) ∧
    storages_exist [] = false ∧
    (∀ f, f ∈ STORAGE_FILES → ∀ files : List String, storages_exist (f :: files) = true) := by
  refine ⟨?_, by decide, ?_⟩
  · intro files
    simp [storages_exist, List.any_eq_true, contains_iff_mem]
  · intro f hf files
    rw [storages_exist, List.any_eq_true]
    exact ⟨f, hf, (contains_iff_mem _ f).mpr (List.mem_cons_self f files)⟩

theorem C6_witness :
    storages_exist ["vdb_chunks.json"] = true :=
  C6_storages_exist.2.2 "vdb_chunks.json" (by decide) []

/-- Modelled from the spec: the workspace reset operation
`reset(workspace_path, scratch_path)` is absent from the current sources —
the app's reset button was removed (`clear_workdir_files` is imported but
unused) — so it is embedded from the spec contract of §4.2: destructively
remove the entire workspace directory tree and the entire scratch
directory tree (if present), then recreate both as empty directories; a
failure to recreate (the `recreateOk` oracle) is fatal and surfaced to the
caller. -/
def reset_workspace (recreateOk : Bool) (ws scratch : Workdir) :
    Except Unit (Workdir × Workdir) :=
  if recreateOk then Except.ok (⟨true, []⟩, ⟨true, []⟩) else Except.error ()

/-- Claim C8: `reset()` removes both directory trees and recreates them
empty: on success both resulting directories exist and are empty and
`storages_exist` is false on the workspace, whatever the two directories
held before; a recreation failure is surfaced to the caller as an error. -/
theorem C8_reset (ws scratch : Workdir) :
    (∀ ws2 sc2, reset_workspace true ws scratch = Except.ok (ws2, sc2) →
        storages_exist ws2.files = false ∧ ws2.dirMade = true ∧ ws2.files = [] ∧
        sc2.dirMade = true ∧ sc2.files = []) ∧
    reset_workspace true ws scratch = Except.ok (⟨true, []⟩, ⟨true, []⟩) ∧
    reset_workspace false ws scratch = Except.error () := by
  refine ⟨?_, rfl, rfl⟩
  intro ws2 sc2 h
  rw [reset_workspace, if_pos rfl] at h
  have h2 := Except.ok.inj h
  have hws : ws2 = ⟨true, []⟩ := (Prod.mk.inj h2.symm).1
  have hsc : sc2 = ⟨true, []⟩ := (Prod.mk.inj h2.symm).2
  subst hws
  subst hsc
  exact ⟨by decide, rfl, rfl, rfl, rfl⟩

theorem C8_witness :
    storages_exist (Workdir.files ⟨true, []⟩) = false ∧
    (Workdir.dirMade ⟨true, []⟩ : Bool) = true :=
  ⟨((C8_reset ⟨true, ["vdb_chunks.json"]⟩ ⟨true, ["x.pdf"]⟩).1 ⟨true, []⟩ ⟨true, []⟩ rfl).1,
   ((C8_reset ⟨true, ["vdb_chunks.json"]⟩ ⟨true, ["x.pdf"]⟩).1 ⟨true, []⟩ ⟨true, []⟩ rfl).2.1⟩

/-! ## Query orchestrator: the run-all-modes loop (`lightrag_app.py`)

The loop `for m in QUERY_MODES: out, ms = run_one_mode(...)` has no
per-mode exception handling, so an exception raised while running one mode
propagates and aborts the remaining modes. -/

/-- `QUERY_MODES` of `ingestion.py`. -/
def QUERY_MODES : List String := ["naive", "local", "global", "hybrid", "mix"]

/-- The `mode == "all"` loop over a list of modes: run each mode in order,
pairing it with its result; an exception (`Except.error`) from one mode
propagates immediately, as the loop body is not wrapped in a handler. -/
def runModesFrom {E A : Type} (f : String → Except E A) :
    List String → Except E (List (String × A))
  | [] => Except.ok []
  | m :: ms =>
    match f m with
    | Except.error e => Except.error e
    | Except.ok a =>
      match runModesFrom f ms with
      | Except.error e => Except.error e
      | Except.ok rest => Except.ok ((m, a) :: rest)

/-- The whole `if mode == "all"` branch: run every mode of `QUERY_MODES`
in enumeration order. -/
def run_all_modes {E A : Type} (f : String → Except E A) :
    Except E (List (String × A)) :=
  runModesFrom f QUERY_MODES

/-- A per-mode runner that fails on `"naive"` and succeeds on every other
mode — the concrete scenario refuting claim C7 as stated. -/
def failNaive : String → Except Nat Nat :=
  fun m => if m == "naive" then Except.error 0 else Except.ok 1

/-- Counterexample to claim C7 as stated: with a runner that fails only on
`"naive"` and succeeds on `"local"` (and every later mode), the all-modes
loop produces no result at all — the failure in the first mode prevents
the remaining modes from being run, instead of collecting their results. -/
theorem C7_counterexample :
    run_all_modes failNaive = Except.error 0 ∧
    failNaive "local" = Except.ok 1 ∧
    failNaive "mix" = Except.ok 1 := by
  refine ⟨rfl, rfl, rfl⟩

lemma runModesFrom_ok {E A : Type} (f : String → Except E A) (g : String → A)
    (L : List String) (h : ∀ m, m ∈ L → f m = Except.ok (g m)) :
    runModesFrom f L = Except.ok (L.map (fun m => (m, g m))) := by
  induction L with
  | nil => rfl
  | cons m ms ih =>
    rw [runModesFrom, h m (List.mem_cons_self m ms),
      ih (fun x hx => h x (List.mem_cons_of_mem m hx))]
    rfl

lemma runModesFrom_error {E A : Type} (f : String → Except E A) (e : E)
    (pre : List String) (m : String) (post : List String)
    (hpre : ∀ x ∈ pre, ∃ a, f x = Except.ok a) (hm : f m = Except.error e) :
    runModesFrom f (pre ++ m :: post) = Except.error e := by
  induction pre with
  | nil => rw [List.nil_append, runModesFrom, hm]
  | cons p pre ih =>
    rcases hpre p (List.mem_cons_self p pre) with ⟨a, ha⟩
    rw [List.cons_append, runModesFrom, ha,
      ih (fun x hx => hpre x (List.mem_cons_of_mem p hx))]

/-- Claim C7 (amended): the all-modes variant invokes the query operation
once per mode of `{naive, local, global, hybrid, mix}` in that enumeration
order, collecting one result per mode, when every mode succeeds; but a
failure in any one mode — whatever its position in the enumeration, with
every earlier mode succeeding — propagates and prevents the remaining
modes from being run (the loop has no per-mode exception handling — only
the per-document ingestion loop has one). -/
theorem C7_all_modes :
    (∀ {A : Type} (f : String → Except Unit A) (g : String → A),
        (∀ m, m ∈ QUERY_MODES → f m = Except.ok (g m)) →
        run_all_modes f = Except.ok (QUERY_MODES.map (fun m => (m, g m)))) ∧
    (∀ {E A : Type} (f : String → Except E A) (e : E)
        (pre : List String) (m : String) (post : List String),
        QUERY_MODES = pre ++ m :: post →
        (∀ x ∈ pre, ∃ a, f x = Except.ok a) →
        f m = Except.error e →
        run_all_modes f = Except.error e) := by
  constructor
  · intro A f g h
    exact runModesFrom_ok f g QUERY_MODES h
  · intro E A f e pre m post hdecomp hpre hm
    rw [run_all_modes, hdecomp]
    exact runModesFrom_error f e pre m post hpre hm

theorem C7_witness :
    (run_all_modes (fun _ => Except.ok (0 : Nat) (ε := Unit)) =
      Except.ok (QUERY_MODES.map (fun m => (m, 0)))) ∧
    (run_all_modes
        (fun m => if m == "hybrid" then Except.error 0 else Except.ok (1 : Nat)) =
      Except.error 0) :=
  ⟨C7_all_modes.1 (fun _ => Except.ok 0) (fun _ => 0) (fun _ _ => rfl),
   C7_all_modes.2 (fun m => if m == "hybrid" then Except.error 0 else Except.ok 1) 0
     ["naive", "local", "global"] "hybrid" ["mix"] rfl
     (fun x hx => ⟨1, by fin_cases hx <;> rfl⟩) rfl⟩

/-! ## Scratch persistence of `pdf_bytes_to_text` (`ingestion.py`)

The function writes the uploaded bytes to `.tmp_docling/<base_name>`,
where `base_name` is `os.path.basename(filename)` (or `doc_<uuid>.pdf`
when no usable filename is given), with `".pdf"` appended when the name
does not already end in `".pdf"` case-insensitively; the normalized
extracted text is then written to `pdf_path.with_suffix(".txt")`. -/

/-- `os.path.basename` for `/`-separated paths: everything after the last
slash. -/
def basename (l : List Char) : List Char :=
  (l.reverse.takeWhile (fun c => !(c == '/'))).reverse

/-- `base_name.lower().endswith(".pdf")`. -/
def lowerEndsWithPdf (l : List Char) : Bool :=
  (".pdf".data).isSuffixOf (l.map Char.toLower)

/-- `pathlib.PurePath.with_suffix(".txt")`: the suffix is the part of the
name from its last dot, provided that dot is neither the first nor the
last character; the suffix (if any) is cut off and `".txt"` appended. -/
def with_suffix_txt (l : List Char) : List Char :=
  match l.reverse.findIdx? (fun c => c == '.') with
  | none => l ++ ".txt".data
  | some k =>
    if 0 < l.length - 1 - k ∧ l.length - 1 - k < l.length - 1 then
      l.take (l.length - 1 - k) ++ ".txt".data
    else l ++ ".txt".data

/-- The files `pdf_bytes_to_text` leaves in the scratch directory: the
name and contents of the copied PDF and of the extracted-text file. -/
structure ScratchWrite where
  pdfName : List Char
  pdfBytes : List Nat
  txtName : List Char
  txtText : List Char
deriving DecidableEq, Repr

/-- `pdf_bytes_to_text(pdf_bytes, filename)`: pick the base name (the
path-stripped basename of `filename` when it is given and non-empty —
Python truthiness — else `doc_<uuid>.pdf`), append `".pdf"` when missing,
write the bytes there, convert (the converter's raw output is the
`rawText` input of the model), normalize, and write the text next to the
PDF under `with_suffix(".txt")`. -/
def pdf_bytes_to_text (pdfBytes : List Nat) (filename : Option (List Char))
    (uuidHex rawText : List Char) : ScratchWrite :=
  let base0 :=
    match filename with
    | some f => if f.isEmpty then "doc_".data ++ uuidHex ++ ".pdf".data else basename f
    | none => "doc_".data ++ uuidHex ++ ".pdf".data
  let base := if lowerEndsWithPdf base0 then base0 else base0 ++ ".pdf".data
  { pdfName := base
  , pdfBytes := pdfBytes
  , txtName := with_suffix_txt base
  , txtText := normalizeText rawText }

lemma takeWhile_append_stop {p : Char → Bool} (c : Char) (hc : p c = false)
    (xs ys : List Char) : (xs ++ c :: ys).takeWhile p = xs.takeWhile p := by
  induction xs with
  | nil => simp [List.takeWhile_cons, hc]
  | cons x xs ih => cases hx : p x <;> simp [List.takeWhile_cons, hx, ih]

lemma takeWhile_eq_self {p : Char → Bool} (xs : List Char)
    (h : ∀ x ∈ xs, p x = true) : xs.takeWhile p = xs := by
  induction xs with
  | nil => rfl
  | cons x xs ih =>
    simp [List.takeWhile_cons, h x (List.mem_cons_self x xs),
      ih (fun y hy => h y (List.mem_cons_of_mem x hy))]

lemma basename_append (d x : List Char) (hx : ∀ c ∈ x, (c == '/') = false) :
    basename (d ++ '/' :: x) = x := by
  unfold basename
  rw [List.reverse_append, List.reverse_cons, List.append_assoc, List.singleton_append,
    takeWhile_append_stop '/' (by decide),
    takeWhile_eq_self x.reverse (by
      intro c hc
      simp [hx c (List.mem_reverse.mp hc)]),
    List.reverse_reverse]

lemma basename_no_slash (x : List Char) (hx : ∀ c ∈ x, (c == '/') = false) :
    basename x = x := by
  unfold basename
  rw [takeWhile_eq_self x.reverse (by
    intro c hc
    simp [hx c (List.mem_reverse.mp hc)]), List.reverse_reverse]

lemma isPrefixOf_self_append (r y : List Char) : r.isPrefixOf (r ++ y) = true := by
  induction r with
  | nil => simp [List.isPrefixOf]
  | cons a r ih => simp [List.cons_append, List.isPrefixOf, ih]

lemma isSuffixOf_append_self (t x : List Char) : t.isSuffixOf (x ++ t) = true := by
  unfold List.isSuffixOf
  rw [List.reverse_append]
  exact isPrefixOf_self_append t.reverse x.reverse

lemma lowerEndsWithPdf_append (x : List Char) :
    lowerEndsWithPdf (x ++ ".pdf".data) = true := by
  unfold lowerEndsWithPdf
  rw [List.map_append,
    (by decide : (".pdf".data).map Char.toLower = ".pdf".data)]
  exact isSuffixOf_append_self (".pdf".data) (x.map Char.toLower)

lemma with_suffix_txt_ext (s : List Char) (c1 c2 c3 : Char) (hs : s ≠ [])
    (h1 : (c1 == '.') = false) (h2 : (c2 == '.') = false) (h3 : (c3 == '.') = false) :
    with_suffix_txt (s ++ '.' :: c1 :: c2 :: c3 :: []) = s ++ ".txt".data := by
  have hpos : 0 < s.length := List.length_pos.mpr hs
  have hlen : (s ++ '.' :: c1 :: c2 :: c3 :: []).length = s.length + 4 := by
    rw [List.length_append]
    rfl
  have hrev : (s ++ '.' :: c1 :: c2 :: c3 :: []).reverse
      = c3 :: c2 :: c1 :: '.' :: s.reverse := by
    rw [List.reverse_append]
    rfl
  have hfind : List.findIdx? (fun c => c == '.') (c3 :: c2 :: c1 :: '.' :: s.reverse)
      = some 3 := by
    simp [List.findIdx?_cons, h1, h2, h3]
  unfold with_suffix_txt
  rw [hrev, hfind]
  dsimp only
  have hi : (s ++ '.' :: c1 :: c2 :: c3 :: []).length - 1 - 3 = s.length := by omega
  rw [hi, if_pos (show 0 < s.length ∧
      s.length < (s ++ '.' :: c1 :: c2 :: c3 :: []).length - 1 from ⟨hpos, by omega⟩),
    List.take_left]

lemma with_suffix_txt_pdf (s : List Char) (hs : s ≠ []) :
    with_suffix_txt (s ++ ".pdf".data) = s ++ ".txt".data :=
  with_suffix_txt_ext s 'p' 'd' 'f' hs (by decide) (by decide) (by decide)

/-- Counterexample to claim C9 as stated: for the provided filename
`"notes.txt"` the persisted scratch file is named `"notes.txt.pdf"`, not
the sanitized (path-stripped) basename `"notes.txt"` — the code appends
`".pdf"` when the basename does not already end in it. -/
theorem C9_counterexample :
    (pdf_bytes_to_text [0] (some ("notes.txt".data)) ("u".data) []).pdfName
        ≠ "notes.txt".data ∧
    (pdf_bytes_to_text [0] (some ("notes.txt".data)) ("u".data) []).pdfName
        = "notes.txt.pdf".data ∧
    basename ("notes.txt".data) = "notes.txt".data := by
  refine ⟨by decide, by decide, by decide⟩

lemma pdf_bytes_to_text_name (b : List Nat) (f u t : List Char)
    (hne : f.isEmpty = false) :
    (pdf_bytes_to_text b (some f) u t).pdfName =
      (if lowerEndsWithPdf (basename f) then basename f else basename f ++ ".pdf".data) ∧
    (pdf_bytes_to_text b (some f) u t).txtName =
      with_suffix_txt
        (if lowerEndsWithPdf (basename f) then basename f else basename f ++ ".pdf".data) := by
  constructor <;> simp [pdf_bytes_to_text, hne]

/-- Claim C9 (amended): `pdf_bytes_to_text` persists the uploaded bytes
byte-for-byte under the scratch directory under the sanitized
(path-stripped) basename of the provided filename — with `".pdf"`
appended when that basename does not already end in `".pdf"`
case-insensitively — falling back to the generated unique name
`doc_<uuid>.pdf` when no filename is given, and in every branch writes the
normalized extracted text alongside under the same base name with a
`.txt` suffix: the text file is always `with_suffix(".txt")` of the PDF
path, which strips exactly the (possibly case-variant) extension. -/
theorem C9_scratch_persistence :
    (∀ (b : List Nat) (fn : Option (List Char)) (u t : List Char),
        (pdf_bytes_to_text b fn u t).pdfBytes = b ∧
        (pdf_bytes_to_text b fn u t).txtText = normalizeText t ∧
        (pdf_bytes_to_text b fn u t).txtName
          = with_suffix_txt (pdf_bytes_to_text b fn u t).pdfName) ∧
    (∀ (b : List Nat) (u t f : List Char), f ≠ [] →
        lowerEndsWithPdf (basename f) = true →
        (pdf_bytes_to_text b (some f) u t).pdfName = basename f) ∧
    (∀ (b : List Nat) (u t f : List Char), f ≠ [] →
        lowerEndsWithPdf (basename f) = false →
        (pdf_bytes_to_text b (some f) u t).pdfName = basename f ++ ".pdf".data ∧
        (basename f ≠ [] →
          (pdf_bytes_to_text b (some f) u t).txtName = basename f ++ ".txt".data)) ∧
    (∀ (b : List Nat) (u t : List Char),
        (pdf_bytes_to_text b none u t).pdfName = "doc_".data ++ u ++ ".pdf".data ∧
        (pdf_bytes_to_text b none u t).txtName = ("doc_".data ++ u) ++ ".txt".data) ∧
    (∀ (b : List Nat) (u t d s : List Char), s ≠ [] →
        (∀ c ∈ s, (c == '/') = false) →
        (pdf_bytes_to_text b (some (d ++ '/' :: (s ++ ".pdf".data))) u t).pdfName
            = s ++ ".pdf".data ∧
        (pdf_bytes_to_text b (some (d ++ '/' :: (s ++ ".pdf".data))) u t).txtName
            = s ++ ".txt".data) ∧
    (∀ (b : List Nat) (u t s : List Char), s ≠ [] →
        (∀ c ∈ s, (c == '/') = false) →
        (pdf_bytes_to_text b (some (s ++ ".pdf".data)) u t).pdfName = s ++ ".pdf".data ∧
        (pdf_bytes_to_text b (some (s ++ ".pdf".data)) u t).txtName = s ++ ".txt".data) ∧
    (∀ (b : List Nat) (u t s : List Char) (c1 c2 c3 : Char), s ≠ [] →
        (∀ c ∈ s, (c == '/') = false) →
        (c1 == '/') = false → (c2 == '/') = false → (c3 == '/') = false →
        (c1 == '.') = false → (c2 == '.') = false → (c3 == '.') = false →
        lowerEndsWithPdf (s ++ '.' :: c1 :: c2 :: c3 :: []) = true →
        (pdf_bytes_to_text b (some (s ++ '.' :: c1 :: c2 :: c3 :: [])) u t).pdfName
            = s ++ '.' :: c1 :: c2 :: c3 :: [] ∧
        (pdf_bytes_to_text b (some (s ++ '.' :: c1 :: c2 :: c3 :: [])) u t).txtName
            = s ++ ".txt".data) := by
  have hpdfslash : ∀ c ∈ ".pdf".data, (c == '/') = false := by decide
  refine ⟨fun b fn u t => ⟨rfl, rfl, rfl⟩, ?_, ?_, ?_, ?_, ?_, ?_⟩
  · intro b u t f hne hlow
    have hne2 : f.isEmpty = false := by
      cases f with
      | nil => exact absurd rfl hne
      | cons x xs => rfl
    rw [(pdf_bytes_to_text_name b f u t hne2).1, if_pos hlow]
  · intro b u t f hne hlow
    have hne2 : f.isEmpty = false := by
      cases f with
      | nil => exact absurd rfl hne
      | cons x xs => rfl
    have hname := pdf_bytes_to_text_name b f u t hne2
    constructor
    · rw [hname.1, hlow]
      simp
    · intro hbne
      rw [hname.2, hlow]
      simp only [Bool.false_eq_true, if_false]
      exact with_suffix_txt_pdf (basename f) hbne
  · intro b u t
    have h1 : lowerEndsWithPdf ("doc_".data ++ u ++ ".pdf".data) = true :=
      lowerEndsWithPdf_append ("doc_".data ++ u)
    have hsne : ("doc_".data ++ u) ≠ [] := by
      intro h
      have h2 := congrArg List.length h
      rw [List.length_append, List.length_nil,
        (by decide : ("doc_".data).length = 4)] at h2
      omega
    constructor
    · unfold pdf_bytes_to_text
      dsimp only
      rw [if_pos h1]
    · unfold pdf_bytes_to_text
      dsimp only
      rw [if_pos h1]
      exact with_suffix_txt_pdf ("doc_".data ++ u) hsne
  · intro b u t d s hs hslash
    have hbase : basename (d ++ '/' :: (s ++ ".pdf".data)) = s ++ ".pdf".data := by
      apply basename_append
      intro c hc
      rcases List.mem_append.mp hc with h | h
      · exact hslash c h
      · exact hpdfslash c h
    have hnonempty : (d ++ '/' :: (s ++ ".pdf".data)).isEmpty = false := by
      cases d <;> rfl
    have hname := pdf_bytes_to_text_name b (d ++ '/' :: (s ++ ".pdf".data)) u t hnonempty
    rw [hbase] at hname
    constructor
    · rw [hname.1, if_pos (lowerEndsWithPdf_append s)]
    · rw [hname.2, if_pos (lowerEndsWithPdf_append s), with_suffix_txt_pdf s hs]
  · intro b u t s hs hslash
    have hbase : basename (s ++ ".pdf".data) = s ++ ".pdf".data := by
      apply basename_no_slash
      intro c hc
      rcases List.mem_append.mp hc with h | h
      · exact hslash c h
      · exact hpdfslash c h
    have hnonempty : (s ++ ".pdf".data).isEmpty = false := by
      cases s with
      | nil => exact absurd rfl hs
      | cons x xs => rfl
    have hname := pdf_bytes_to_text_name b (s ++ ".pdf".data) u t hnonempty
    rw [hbase] at hname
    constructor
    · rw [hname.1, if_pos (lowerEndsWithPdf_append s)]
    · rw [hname.2, if_pos (lowerEndsWithPdf_append s), with_suffix_txt_pdf s hs]
  · intro b u t s c1 c2 c3 hs hslash h1s h2s h3s h1d h2d h3d hlow
    have hbase : basename (s ++ '.' :: c1 :: c2 :: c3 :: [])
        = s ++ '.' :: c1 :: c2 :: c3 :: [] := by
      apply basename_no_slash
      intro c hc
      rcases List.mem_append.mp hc with h | h
      · exact hslash c h
      · simp only [List.mem_cons, List.not_mem_nil, or_false] at h
        rcases h with rfl | rfl | rfl | rfl
        · decide
        · exact h1s
        · exact h2s
        · exact h3s
    have hnonempty : (s ++ '.' :: c1 :: c2 :: c3 :: []).isEmpty = false := by
      cases s with
      | nil => exact absurd rfl hs
      | cons x xs => rfl
    have hname := pdf_bytes_to_text_name b (s ++ '.' :: c1 :: c2 :: c3 :: []) u t hnonempty
    rw [hbase] at hname
    constructor
    · rw [hname.1, if_pos hlow]
    · rw [hname.2, if_pos hlow, with_suffix_txt_ext s c1 c2 c3 hs h1d h2d h3d]

theorem C9_witness :
    ((pdf_bytes_to_text [0, 1] (some ("report".data ++ ".pdf".data)) ("u".data) []).pdfName
        = "report".data ++ ".pdf".data ∧
     (pdf_bytes_to_text [0, 1] (some ("report".data ++ ".pdf".data)) ("u".data) []).txtName
        = "report".data ++ ".txt".data) ∧
    ((pdf_bytes_to_text [2] (some ("report".data ++ '.' :: 'P' :: 'D' :: 'F' :: []))
        ("u".data) []).pdfName = "report".data ++ '.' :: 'P' :: 'D' :: 'F' :: [] ∧
     (pdf_bytes_to_text [2] (some ("report".data ++ '.' :: 'P' :: 'D' :: 'F' :: []))
        ("u".data) []).txtName = "report".data ++ ".txt".data) :=
  ⟨C9_scratch_persistence.2.2.2.2.2.1 [0, 1] ("u".data) [] ("report".data)
     (by decide) (by decide),
   C9_scratch_persistence.2.2.2.2.2.2 [2] ("u".data) [] ("report".data) 'P' 'D' 'F'
     (by decide) (by decide) (by decide) (by decide) (by decide)
     (by decide) (by decide) (by decide) (by decide)⟩
